import Mathlib

/-!
Verification of the handbook RAG assistant core against its source
(`src/ask.py`, `src/utils.py`, `src/ingest.py`, `src/config.py`).

Modelling conventions: Python floats are rationals (every constant involved —
0.25, 0.5 — is exactly representable), Python dicts are insertion-ordered
association lists, fallible operations return `Option`.
-/

/-- A chunk metadata record as produced by `utils.chunk_text_with_overlap`,
with the `chunk_id` key added later by `ingest.create_chunks` (0 until then).
The dict key `section` is renamed `sectionHint` (Lean keyword). -/
structure Chunk where
  text : String
  page : ℕ
  sectionHint : String
  word_count : ℕ
  chunk_id : ℕ
deriving DecidableEq, Repr

/-- A retrieved chunk: `chunk = self.metadata[idx].copy(); chunk['score'] = float(score)`
in `HandbookAssistant.retrieve`. -/
structure Retrieved where
  base : Chunk
  score : ℚ
deriving DecidableEq, Repr

/-- The result dictionary returned by `HandbookAssistant.ask`. -/
structure AskResult where
  answer : String
  sources : List Retrieved
  pages : List ℕ
  confidence : String
  max_score : ℚ
deriving DecidableEq, Repr

/-- `config.SIMILARITY_THRESHOLD = 0.25`. -/
def SIMILARITY_THRESHOLD : ℚ := 1/4

/-- `config.MIN_CHUNK_SIZE = 50`. -/
def MIN_CHUNK_SIZE : ℕ := 50

/-- The fixed decline string from `ask.py` and `utils.format_retrieved_chunks`. -/
def declineMsg : String := "I don\x27t have that in the handbook."

/-- One step of the `page_groups` accumulation in `utils.format_retrieved_chunks`:
append the text to the entry of page `p`, or add a new `(p, [t])` entry at the
end (Python dicts preserve key insertion order). -/
def addToGroups : List (ℕ × List String) → ℕ → String → List (ℕ × List String)
  | [], p, t => [(p, [t])]
  | (q, ts) :: g, p, t =>
      if q = p then (q, ts ++ [t]) :: g else (q, ts) :: addToGroups g p t

/-- The `page_groups` dict of `utils.format_retrieved_chunks`, built from the
`(text, page)` projection of the chunk dicts, as an association list. -/
def pageGroups (cs : List (String × ℕ)) : List (ℕ × List String) :=
  cs.foldl (fun g c => addToGroups g c.2 c.1) []

/-- `sorted(page_groups.items())`: ascending page number (the keys are distinct,
so Python tuple comparison never reaches the second component). -/
def pgSort (g : List (ℕ × List String)) : List (ℕ × List String) :=
  List.insertionSort (fun a b => a.1 ≤ b.1) g

/-- `f"{page_text} (p. {page})"` where `page_text = "\n".join(c['text'] for c in page_chunks)`. -/
def renderGroup (g : ℕ × List String) : String :=
  String.intercalate "\n" g.2 ++ " (p. " ++ toString g.1 ++ ")"

/-- `utils.format_retrieved_chunks`, over the `(text, page)` projection of the
chunk dicts it reads. -/
def format_retrieved_chunks (cs : List (String × ℕ)) : String :=
  if cs.isEmpty then declineMsg
  else String.intercalate "\n\n" ((pgSort (pageGroups cs)).map renderGroup)

/-- `utils.get_unique_pages`: `sorted(list(set(chunk['page'] for chunk in chunks)))`. -/
def get_unique_pages (cs : List Retrieved) : List ℕ :=
  List.insertionSort (· ≤ ·) ((cs.map fun c => c.base.page).dedup)

/-- Python `max(chunk['score'] for chunk in retrieved_chunks)`; 0 for no results
(the case `check_relevance` short-circuits before taking the max). -/
def maxScoreOf : List Retrieved → ℚ
  | [] => 0
  | c :: cs => cs.foldl (fun a x => max a x.score) c.score

/-- `HandbookAssistant.check_relevance`. -/
def check_relevance (r : List Retrieved) : Bool :=
  match r with
  | [] => false
  | c :: cs => decide (SIMILARITY_THRESHOLD ≤ maxScoreOf (c :: cs))

/-- The dict `ask` returns on the decline path. -/
def declineResult : AskResult :=
  { answer := declineMsg, sources := [], pages := [], confidence := "low", max_score := 0 }

/-- `HandbookAssistant.ask` after the retrieval step: a function of the retrieved
chunk list (query embedding and index search happen in `retrieve`; the prompt-log
append is I/O that does not affect the result). The `[]` branch under a true
relevance check is dead code: `check_relevance [] = false`. -/
def ask (r : List Retrieved) : AskResult :=
  if check_relevance r then
    match r with
    | [] => declineResult
    | c :: cs =>
        { answer := format_retrieved_chunks ((c :: cs).map fun x => (x.base.text, x.base.page)),
          sources := c :: cs,
          pages := get_unique_pages (c :: cs),
          confidence := if (1 : ℚ)/2 < c.score then "high" else "medium",
          max_score := c.score }
  else declineResult

/-- Sentinel similarity FAISS writes into padding slots (stands in for the IEEE
negative-infinity fill value; only the fact that it fills the slot matters). -/
def PADDING_SCORE : ℚ := -340282366920938463463374607431768211456

/-- Ranked insertion: descending score, ties broken by ascending stored index. -/
def rankInsert (x : ℤ × ℚ) : List (ℤ × ℚ) → List (ℤ × ℚ)
  | [] => [x]
  | y :: ys =>
      if y.2 < x.2 ∨ (x.2 = y.2 ∧ x.1 < y.1) then x :: y :: ys else y :: rankInsert x ys

def rankSort (l : List (ℤ × ℚ)) : List (ℤ × ℚ) := l.foldr rankInsert []

/-- Model of `faiss.IndexFlatIP.search` for a single query. `rowScores` lists the
inner products of the normalized query against the stored rows, in row order.
Exact search returns the top `k` `(index, score)` pairs by descending score and,
per the documented FAISS contract, pads the result up to length `k` with
`(-1, -inf)` entries when `k` exceeds the number of stored vectors. -/
def faissFlatSearch (rowScores : List ℚ) (k : ℕ) : List (ℤ × ℚ) :=
  let ranked := rankSort ((List.range rowScores.length).map fun i => (Int.ofNat i, rowScores.getD i 0))
  let top := ranked.take k
  top ++ List.replicate (k - top.length) ((-1 : ℤ), PADDING_SCORE)

/-- Python sequence indexing `l[i]`: negative indices address from the end;
out of range raises IndexError, modelled as `none`. -/
def pyGet {α : Type} (l : List α) (i : ℤ) : Option α :=
  if 0 ≤ i then l.get? i.toNat
  else if (-i).toNat ≤ l.length then l.get? (l.length - (-i).toNat) else none

/-- The metadata join loop of `HandbookAssistant.retrieve`:
`for score, idx in zip(scores[0], indices[0]): chunk = self.metadata[idx].copy(); ...`. -/
def joinHits (md : List Chunk) : List (ℤ × ℚ) → Option (List Retrieved)
  | [] => some []
  | (i, s) :: rest =>
      match pyGet md i, joinHits md rest with
      | some c, some l => some ({ base := c, score := s } :: l)
      | _, _ => none

/-- `HandbookAssistant.retrieve` after query embedding: `rowScores` abstracts the
inner products of the embedded query with the index rows (row-aligned with
`md`, the loaded metadata list); `k` is `top_k`. -/
def retrieve (md : List Chunk) (rowScores : List ℚ) (k : ℕ) : Option (List Retrieved) :=
  joinHits md (faissFlatSearch rowScores k)

/-! Helper lemmas about `ask`. -/

theorem foldl_max_of_le (l : List Retrieved) (a : ℚ) (h : ∀ x ∈ l, x.score ≤ a) :
    l.foldl (fun b x => max b x.score) a = a := by
  induction l generalizing a with
  | nil => rfl
  | cons x xs ih =>
      have hx : max a x.score = a := max_eq_left (h x (by simp))
      simpa [hx] using ih a fun y hy => h y (by simp [hy])

theorem maxScoreOf_cons_of_le (c : Retrieved) (cs : List Retrieved)
    (h : ∀ x ∈ cs, x.score ≤ c.score) : maxScoreOf (c :: cs) = c.score :=
  foldl_max_of_le cs c.score h

theorem maxScoreOf_nil : maxScoreOf [] = 0 := rfl

theorem ask_eq_decline_of_lt (r : List Retrieved)
    (h : maxScoreOf r < SIMILARITY_THRESHOLD) : ask r = declineResult := by
  cases r with
  | nil => simp [ask, check_relevance]
  | cons c cs =>
      have hrel : check_relevance (c :: cs) = false := by
        simp only [check_relevance, decide_eq_false_iff_not]
        exact not_le.mpr h
      simp [ask, hrel]

theorem ask_eq_answered_of_le (c : Retrieved) (cs : List Retrieved)
    (h : SIMILARITY_THRESHOLD ≤ maxScoreOf (c :: cs)) :
    ask (c :: cs) =
      { answer := format_retrieved_chunks ((c :: cs).map fun x => (x.base.text, x.base.page)),
        sources := c :: cs,
        pages := get_unique_pages (c :: cs),
        confidence := if (1 : ℚ)/2 < c.score then "high" else "medium",
        max_score := c.score } := by
  have hrel : check_relevance (c :: cs) = true := by
    simp only [check_relevance, decide_eq_true_eq]
    exact h
  simp [ask, hrel]

/-- C2: the outcome is declined — the fixed decline string, empty source list,
empty page list, lowest confidence tier, i.e. exactly the record `declineResult`
— precisely when the maximum retrieval score (0 when there are no results) is
strictly below the threshold; at or above the threshold, including exactly
equal, the outcome is the answered record instead. -/
theorem ask_declined_iff_max_below_threshold (r : List Retrieved) :
    ask r = declineResult ↔ maxScoreOf r < SIMILARITY_THRESHOLD := by
  constructor
  · intro h
    by_contra hge
    push_neg at hge
    cases r with
    | nil =>
        rw [maxScoreOf_nil] at hge
        norm_num [SIMILARITY_THRESHOLD] at hge
    | cons c cs =>
        rw [ask_eq_answered_of_le c cs hge] at h
        have : (c :: cs : List Retrieved) = [] := congrArg AskResult.sources h
        simp at this
  · exact ask_eq_decline_of_lt r

/-- C3: whenever the outcome is answered (maximum score at least the threshold),
the result's source list is exactly the full retrieved sequence, in retrieval
order — no chunk is dropped for an individually low score. -/
theorem ask_sources_are_all_retrieved (r : List Retrieved)
    (h : SIMILARITY_THRESHOLD ≤ maxScoreOf r) : (ask r).sources = r := by
  cases r with
  | nil =>
      rw [maxScoreOf_nil] at h
      norm_num [SIMILARITY_THRESHOLD] at h
  | cons c cs => rw [ask_eq_answered_of_le c cs h]

theorem ask_sources_are_all_retrieved_witness :
    (ask [⟨⟨"t", 1, "s", 7, 0⟩, 3/10⟩, ⟨⟨"u", 2, "s", 7, 1⟩, 1/10⟩]).sources =
      [⟨⟨"t", 1, "s", 7, 0⟩, 3/10⟩, ⟨⟨"u", 2, "s", 7, 1⟩, 1/10⟩] :=
  ask_sources_are_all_retrieved _ (by norm_num [maxScoreOf, SIMILARITY_THRESHOLD])

/-- C9: for an answered query, with the retrieved list led by its top-scoring
chunk (the order the index search returns), the confidence tier is "high"
exactly when the top score strictly exceeds 0.5 and "medium" otherwise, and the
reported `max_score` equals the top score. -/
theorem ask_confidence_tiers (c : Retrieved) (cs : List Retrieved)
    (htop : ∀ x ∈ cs, x.score ≤ c.score)
    (hans : SIMILARITY_THRESHOLD ≤ c.score) :
    ((ask (c :: cs)).confidence = "high" ↔ (1 : ℚ)/2 < c.score) ∧
    ((ask (c :: cs)).confidence = "medium" ↔ c.score ≤ (1 : ℚ)/2) ∧
    (ask (c :: cs)).max_score = c.score := by
  have hmax : maxScoreOf (c :: cs) = c.score := maxScoreOf_cons_of_le c cs htop
  rw [ask_eq_answered_of_le c cs (hmax ▸ hans)]
  by_cases h12 : (1 : ℚ)/2 < c.score
  · refine ⟨by simp [h12], ?_, rfl⟩
    simp only [if_pos h12]
    constructor
    · intro h; exact absurd h (by decide)
    · intro h; exact absurd h (not_le.mpr h12)
  · refine ⟨?_, by simp [h12, not_lt.mp h12], rfl⟩
    simp only [if_neg h12]
    constructor
    · intro h; exact absurd h (by decide)
    · intro h; exact absurd h h12

theorem ask_confidence_tiers_witness :
    (((ask [⟨⟨"t", 1, "s", 7, 0⟩, 3/5⟩]).confidence = "high" ↔ (1 : ℚ)/2 < (3/5 : ℚ)) ∧
     ((ask [⟨⟨"t", 1, "s", 7, 0⟩, 3/5⟩]).confidence = "medium" ↔ (3/5 : ℚ) ≤ (1 : ℚ)/2) ∧
     (ask [⟨⟨"t", 1, "s", 7, 0⟩, 3/5⟩]).max_score = (3/5 : ℚ)) :=
  ask_confidence_tiers ⟨⟨"t", 1, "s", 7, 0⟩, 3/5⟩ [] (by simp)
    (by norm_num [SIMILARITY_THRESHOLD])

/-- C10: on the decline path the reported `max_score` field is exactly 0,
whatever below-threshold scores retrieval actually produced. -/
theorem ask_decline_reports_zero_max_score (r : List Retrieved)
    (h : maxScoreOf r < SIMILARITY_THRESHOLD) : (ask r).max_score = 0 := by
  rw [ask_eq_decline_of_lt r h]
  rfl

theorem ask_decline_reports_zero_max_score_witness :
    (ask [⟨⟨"t", 1, "s", 7, 0⟩, 1/5⟩]).max_score = 0 :=
  ask_decline_reports_zero_max_score _ (by norm_num [maxScoreOf, SIMILARITY_THRESHOLD])

/-- C1 fails on the code: with 2 stored vectors and `top_k = 5`, `retrieve`
returns 5 records rather than 2 — FAISS pads the two real hits with `(-1, -inf)`
entries, and Python's negative indexing silently joins every padding entry to
the *last* metadata record, duplicating it with sentinel scores. No error is
raised, but the result is not "exactly n results, one per stored chunk". -/
theorem retrieve_topk_overflow_pads_with_last_chunk :
    retrieve [⟨"alpha", 1, "A", 7, 0⟩, ⟨"beta", 2, "B", 7, 1⟩] [1, 0] 5 =
      some [⟨⟨"alpha", 1, "A", 7, 0⟩, 1⟩, ⟨⟨"beta", 2, "B", 7, 1⟩, 0⟩,
            ⟨⟨"beta", 2, "B", 7, 1⟩, PADDING_SCORE⟩, ⟨⟨"beta", 2, "B", 7, 1⟩, PADDING_SCORE⟩,
            ⟨⟨"beta", 2, "B", 7, 1⟩, PADDING_SCORE⟩] ∧
    (retrieve [⟨"alpha", 1, "A", 7, 0⟩, ⟨"beta", 2, "B", 7, 1⟩] [1, 0] 5).map
        List.length ≠ some 2 := by
  constructor
  · decide
  · decide

/-! The chunker (`utils.chunk_text_with_overlap`) and the section-hint
heuristic (`utils.extract_section_hint`). -/

/-- Split a character list at every character satisfying `p`, keeping empty
cells between adjacent separators — the cell structure of Python
`str.split(sep)` for a one-character separator. -/
def splitCells (p : Char → Bool) : List Char → List (List Char)
  | [] => [[]]
  | c :: cs =>
      if p c then [] :: splitCells p cs
      else match splitCells p cs with
        | [] => [[c]]
        | h :: t => (c :: h) :: t

/-- Python `text.split('\n')`. -/
def pyLines (s : String) : List String :=
  (splitCells (fun c => c = '\n') s.data).map String.mk

/-- Drop ASCII whitespace from both ends of a character list. -/
def trimChars (l : List Char) : List Char :=
  ((l.dropWhile Char.isWhitespace).reverse.dropWhile Char.isWhitespace).reverse

/-- Python `line.strip()` (ASCII-whitespace model). -/
def pyStrip (s : String) : String := String.mk (trimChars s.data)

/-- Python `str.split()` with no argument: split on whitespace runs,
discarding empty fields. -/
def pySplit (s : String) : List String :=
  ((splitCells Char.isWhitespace s.data).filter (fun w => !w.isEmpty)).map String.mk

/-- Python `int()` applied to a real value: truncation toward zero. -/
def pyInt (q : ℚ) : ℤ := if 0 ≤ q then ⌊q⌋ else ⌈q⌉

/-- `overlap_words = int(chunk_size_words * overlap_pct)`. -/
def overlapWordsZ (C : ℕ) (frac : ℚ) : ℤ := pyInt ((C : ℚ) * frac)

/-- `step = chunk_size_words - overlap_words` (a Python int). -/
def stepZ (C : ℕ) (frac : ℚ) : ℤ := (C : ℤ) - overlapWordsZ C frac

def stepN (C : ℕ) (frac : ℚ) : ℕ := (stepZ C frac).toNat

def overlapN (C : ℕ) (frac : ℚ) : ℕ := (overlapWordsZ C frac).toNat

/-- The window loop of `utils.chunk_text_with_overlap`:
`for i in range(0, len(words), step)` take `words[i:i+chunk_size]`, stop at the
first window shorter than `MIN_CHUNK_SIZE`. `fuel` bounds the iteration count;
`words.length + 1` always suffices because a productive iteration needs
`s < words.length` (its window has at least `MIN_CHUNK_SIZE ≥ 1` words) and the
Python range requires a positive step. -/
def chunkLoop (words : List String) (C step : ℕ) : ℕ → ℕ → List (List String)
  | 0, _ => []
  | fuel + 1, s =>
      if ((words.drop s).take C).length < MIN_CHUNK_SIZE then []
      else (words.drop s).take C :: chunkLoop words C step fuel (s + step)

/-- The word windows produced by `utils.chunk_text_with_overlap` on the word
list of the input text (empty when the page is shorter than `MIN_CHUNK_SIZE`). -/
def chunkWindows (words : List String) (C : ℕ) (frac : ℚ) : List (List String) :=
  if words.length < MIN_CHUNK_SIZE then []
  else chunkLoop words C (stepN C frac) (words.length + 1) 0

/-- Python `str.isupper()` (ASCII model): at least one cased character and no
lower-case one. -/
def pyIsUpper (s : String) : Bool :=
  s.data.any Char.isUpper && s.data.all (fun c => !c.isLower)

/-- The regex `^\d+\.?\s+[A-Z]` of `extract_section_hint`: leading digits, an
optional period, at least one whitespace character, then an upper-case letter
(backtracking never helps here, so the greedy reading is exact). -/
def matchNumHeading (s : String) : Bool :=
  let ds := s.data.takeWhile Char.isDigit
  let r1 := s.data.dropWhile Char.isDigit
  let r2 := match r1 with
    | '.' :: r => r
    | r => r
  let ws := r2.takeWhile Char.isWhitespace
  let r3 := r2.dropWhile Char.isWhitespace
  !ds.isEmpty && !ws.isEmpty && (match r3 with | c :: _ => c.isUpper | [] => false)

/-- The per-line test of `extract_section_hint`:
`len(line) > 5 and len(line) < 100` and (`line.isupper()` or the regex). -/
def headingCheck (s : String) : Bool :=
  (5 < s.length && s.length < 100) && (pyIsUpper s || matchNumHeading s)

/-- The `for line in lines[:3]` loop of `extract_section_hint`: strip each
line, test it, return the first stripped hit. -/
def hintLoop : List String → Option String
  | [] => none
  | l :: ls => if headingCheck (pyStrip l) then some (pyStrip l) else hintLoop ls

/-- `text[:50]` (character slice). -/
def pyTake (s : String) (n : ℕ) : String := String.mk (s.data.take n)

/-- `text.replace('\n', ' ')`. -/
def pyReplaceNl (s : String) : String :=
  String.mk (s.data.map fun c => if c = '\n' then ' ' else c)

/-- `utils.extract_section_hint`. -/
def extract_section_hint (t : String) : String :=
  match hintLoop ((pyLines t).take 3) with
  | some s => s
  | none => pyStrip (pyReplaceNl (pyTake t 50)) ++ "..."

/-- The chunk dict built per window in `utils.chunk_text_with_overlap`
(`chunk_id` is added only later by `ingest.create_chunks`; 0 until then). -/
def mkChunk (page : ℕ) (ws : List String) : Chunk :=
  { text := String.intercalate " " ws,
    page := page,
    sectionHint := extract_section_hint (String.intercalate " " ws),
    word_count := ws.length,
    chunk_id := 0 }

/-- `utils.chunk_text_with_overlap`. -/
def chunk_text_with_overlap (text : String) (page : ℕ) (C : ℕ) (frac : ℚ) : List Chunk :=
  (chunkWindows (pySplit text) C frac).map (mkChunk page)

/-! Window lemmas. -/

theorem chunkLoop_sizes (words : List String) (C step : ℕ) :
    ∀ fuel s, ∀ w ∈ chunkLoop words C step fuel s,
      MIN_CHUNK_SIZE ≤ w.length ∧ w.length ≤ C := by
  intro fuel
  induction fuel with
  | zero => intro s w hw; simp [chunkLoop] at hw
  | succ n ih =>
      intro s w hw
      rw [chunkLoop] at hw
      by_cases hshort : ((words.drop s).take C).length < MIN_CHUNK_SIZE
      · rw [if_pos hshort] at hw; simp at hw
      · rw [if_neg hshort] at hw
        rcases List.mem_cons.mp hw with h | h
        · subst h
          exact ⟨not_lt.mp hshort, List.length_take_le C (words.drop s)⟩
        · exact ih (s + step) w h

theorem chunkWindows_sizes (words : List String) (C : ℕ) (frac : ℚ) :
    ∀ w ∈ chunkWindows words C frac, MIN_CHUNK_SIZE ≤ w.length ∧ w.length ≤ C := by
  intro w hw
  rw [chunkWindows] at hw
  by_cases hsh : words.length < MIN_CHUNK_SIZE
  · rw [if_pos hsh] at hw; simp at hw
  · rw [if_neg hsh] at hw
    exact chunkLoop_sizes words C (stepN C frac) (words.length + 1) 0 w hw

theorem chunkLoop_get? (words : List String) (C step : ℕ) :
    ∀ fuel s j w, (chunkLoop words C step fuel s).get? j = some w →
      w = (words.drop (s + j * step)).take C := by
  intro fuel
  induction fuel with
  | zero => intro s j w h; simp [chunkLoop] at h
  | succ n ih =>
      intro s j w h
      rw [chunkLoop] at h
      by_cases hshort : ((words.drop s).take C).length < MIN_CHUNK_SIZE
      · rw [if_pos hshort] at h; simp at h
      · rw [if_neg hshort] at h
        cases j with
        | zero =>
            simp only [List.get?] at h
            cases h
            simp
        | succ j =>
            have hj := ih (s + step) j w (by simpa [List.get?] using h)
            rw [hj]
            congr 2
            ring

/-- C6: for any chunking input, every produced chunk has `word_count` at least
`MIN_CHUNK_SIZE = 50` (the configured minimum) and at most `target_words`, and
a page whose total word count is below the minimum yields an empty chunk list
rather than an error. -/
theorem chunk_word_count_bounds (text : String) (page C : ℕ) (frac : ℚ)
    (hstride : 1 ≤ stepN C frac) :
    (∀ c ∈ chunk_text_with_overlap text page C frac,
        MIN_CHUNK_SIZE ≤ c.word_count ∧ c.word_count ≤ C) ∧
    ((pySplit text).length < MIN_CHUNK_SIZE →
        chunk_text_with_overlap text page C frac = []) := by
  constructor
  · intro c hc
    rw [chunk_text_with_overlap] at hc
    obtain ⟨w, hw, rfl⟩ := List.mem_map.mp hc
    exact chunkWindows_sizes (pySplit text) C frac w hw
  · intro h
    rw [chunk_text_with_overlap, chunkWindows, if_pos h]
    rfl

/-! C5: overlap of consecutive windows. -/

/-- "`l1` and `l2` overlap by exactly `k` words": both are at least `k` words
long and the last `k` words of `l1` are the first `k` words of `l2`. -/
def overlapsBy (l1 l2 : List String) (k : ℕ) : Prop :=
  k ≤ l1.length ∧ k ≤ l2.length ∧ l1.drop (l1.length - k) = l2.take k

instance (l1 l2 : List String) (k : ℕ) : Decidable (overlapsBy l1 l2 k) :=
  inferInstanceAs (Decidable (_ ∧ _ ∧ _))

theorem overlapWordsZ_eq_floor (C : ℕ) (frac : ℚ) (h0 : 0 ≤ frac) :
    overlapWordsZ C frac = ⌊(C : ℚ) * frac⌋ := by
  rw [overlapWordsZ, pyInt, if_pos (mul_nonneg (Nat.cast_nonneg C) h0)]

theorem overlapWordsZ_nonneg (C : ℕ) (frac : ℚ) (h0 : 0 ≤ frac) :
    0 ≤ overlapWordsZ C frac := by
  rw [overlapWordsZ_eq_floor C frac h0]
  exact Int.floor_nonneg.mpr (mul_nonneg (Nat.cast_nonneg C) h0)

theorem overlapWordsZ_le (C : ℕ) (frac : ℚ) (h0 : 0 ≤ frac) (h1 : frac < 1) :
    overlapWordsZ C frac ≤ (C : ℤ) := by
  rw [overlapWordsZ_eq_floor C frac h0]
  have hle : (C : ℚ) * frac ≤ (C : ℚ) := by
    calc (C : ℚ) * frac ≤ (C : ℚ) * 1 := mul_le_mul_of_nonneg_left h1.le (Nat.cast_nonneg C)
      _ = (C : ℚ) := mul_one _
  calc ⌊(C : ℚ) * frac⌋ ≤ ⌊(C : ℚ)⌋ := Int.floor_le_floor hle
    _ = (C : ℤ) := Int.floor_natCast C

theorem step_add_overlap (C : ℕ) (frac : ℚ) (h0 : 0 ≤ frac) (h1 : frac < 1) :
    stepN C frac + overlapN C frac = C ∧ overlapN C frac ≤ C := by
  have hnn := overlapWordsZ_nonneg C frac h0
  have hle := overlapWordsZ_le C frac h0 h1
  unfold stepN stepZ overlapN
  omega

/-- C5 (amended): `overlap_words` is `floor(target_words * overlap_fraction)`,
and every pair of consecutive windows from one page whose *earlier* window is
full-length (`target_words` words) overlaps by exactly `overlap_words` words.
(The original claim exempted only the final chunk; in fact every pair led by a
trailing short window can overlap by fewer — see the counterexample.) -/
theorem chunk_overlap_floor_and_exact (words : List String) (C : ℕ) (frac : ℚ)
    (h0 : 0 ≤ frac) (h1 : frac < 1) :
    overlapWordsZ C frac = ⌊(C : ℚ) * frac⌋ ∧
    ∀ j wj wk, (chunkWindows words C frac).get? j = some wj →
      (chunkWindows words C frac).get? (j + 1) = some wk →
      wj.length = C → overlapsBy wj wk (overlapN C frac) := by
  obtain ⟨hsum, hovC⟩ := step_add_overlap C frac h0 h1
  refine ⟨overlapWordsZ_eq_floor C frac h0, ?_⟩
  intro j wj wk hj hk hfull
  rw [chunkWindows] at hj hk
  by_cases hsh : words.length < MIN_CHUNK_SIZE
  · rw [if_pos hsh] at hj; simp at hj
  · rw [if_neg hsh] at hj hk
    have hwj := chunkLoop_get? words C (stepN C frac) (words.length + 1) 0 j wj hj
    have hwk := chunkLoop_get? words C (stepN C frac) (words.length + 1) 0 (j + 1) wk hk
    have hwk' : wk = (words.drop (0 + j * stepN C frac + stepN C frac)).take C := by
      rw [hwk]; congr 2; ring
    have hlenj : wj.length = min C (words.length - (0 + j * stepN C frac)) := by
      rw [hwj, List.length_take, List.length_drop]
    have hlenk : wk.length = min C (words.length - (0 + j * stepN C frac + stepN C frac)) := by
      rw [hwk', List.length_take, List.length_drop]
    have hC_le : C ≤ words.length - (0 + j * stepN C frac) := by
      rw [hfull] at hlenj; omega
    refine ⟨by omega, by omega, ?_⟩
    have hCo : wj.length - overlapN C frac = stepN C frac := by omega
    rw [hCo, hwj, hwk', List.drop_take, List.take_take, List.drop_drop]
    have e1 : C - stepN C frac = overlapN C frac := by omega
    have e2 : min (overlapN C frac) C = overlapN C frac := by omega
    rw [e1, e2]

/-- The original C5 is false: words of one page that give several trailing
short windows make a *non-final* consecutive pair overlap by fewer than
`overlap_words` words. With 104 words, `target_words = 53` and
`overlap_fraction = 52/53` (so `overlap_words = 52`, stride 1), the windows at
positions 52 and 53 are followed by a further window at 54, yet they share only
51 words. -/
theorem chunk_overlap_counterexample :
    (0 : ℚ) ≤ 52/53 ∧ (52/53 : ℚ) < 1 ∧
    overlapN 53 (52/53 : ℚ) = 52 ∧ stepN 53 (52/53 : ℚ) = 1 ∧
    (chunkWindows (List.replicate 104 "w") 53 (52/53 : ℚ)).length = 55 ∧
    ¬ overlapsBy ((chunkWindows (List.replicate 104 "w") 53 (52/53 : ℚ)).getD 52 [])
        ((chunkWindows (List.replicate 104 "w") 53 (52/53 : ℚ)).getD 53 []) 52 := by
  have hov : overlapWordsZ 53 (52/53 : ℚ) = 52 := by
    rw [overlapWordsZ_eq_floor 53 (52/53) (by norm_num)]
    norm_num
  have hovN : overlapN 53 (52/53 : ℚ) = 52 := by rw [overlapN, hov]; rfl
  have hstN : stepN 53 (52/53 : ℚ) = 1 := by rw [stepN, stepZ, hov]; rfl
  have hwin : chunkWindows (List.replicate 104 "w") 53 (52/53 : ℚ) =
      chunkLoop (List.replicate 104 "w") 53 1 105 0 := by
    rw [chunkWindows, if_neg (by norm_num [MIN_CHUNK_SIZE]), hstN]
    rfl
  refine ⟨by norm_num, by norm_num, hovN, hstN, ?_, ?_⟩
  · rw [hwin]; decide
  · rw [hwin]; decide

theorem chunk_word_count_bounds_witness :
    (∀ c ∈ chunk_text_with_overlap "a b c" 1 60 (1/2 : ℚ),
        MIN_CHUNK_SIZE ≤ c.word_count ∧ c.word_count ≤ 60) ∧
    ((pySplit "a b c").length < MIN_CHUNK_SIZE →
        chunk_text_with_overlap "a b c" 1 60 (1/2 : ℚ) = []) :=
  chunk_word_count_bounds "a b c" 1 60 (1/2) (by
    have hov : overlapWordsZ 60 (1/2 : ℚ) = 30 := by
      rw [overlapWordsZ_eq_floor 60 (1/2) (by norm_num)]
      norm_num
    rw [stepN, stepZ, hov]
    decide)

theorem chunk_overlap_floor_and_exact_witness :
    overlapsBy ((chunkWindows (List.replicate 120 "w") 60 (1/2 : ℚ)).getD 0 [])
      ((chunkWindows (List.replicate 120 "w") 60 (1/2 : ℚ)).getD 1 [])
      (overlapN 60 (1/2 : ℚ)) := by
  have hov : overlapWordsZ 60 (1/2 : ℚ) = 30 := by
    rw [overlapWordsZ_eq_floor 60 (1/2) (by norm_num)]
    norm_num
  have hstN : stepN 60 (1/2 : ℚ) = 30 := by
    rw [stepN, stepZ, hov]
    rfl
  have hwin : chunkWindows (List.replicate 120 "w") 60 (1/2 : ℚ) =
      chunkLoop (List.replicate 120 "w") 60 30 121 0 := by
    rw [chunkWindows, if_neg (by norm_num [MIN_CHUNK_SIZE]), hstN]
    rfl
  have h0 : (chunkWindows (List.replicate 120 "w") 60 (1/2 : ℚ)).get? 0 =
      some (List.replicate 60 "w") := by
    rw [hwin]; decide
  have h1 : (chunkWindows (List.replicate 120 "w") 60 (1/2 : ℚ)).get? 1 =
      some (List.replicate 60 "w") := by
    rw [hwin]; decide
  have g0 : (chunkWindows (List.replicate 120 "w") 60 (1/2 : ℚ)).getD 0 [] =
      List.replicate 60 "w" := by
    rw [hwin]; decide
  have g1 : (chunkWindows (List.replicate 120 "w") 60 (1/2 : ℚ)).getD 1 [] =
      List.replicate 60 "w" := by
    rw [hwin]; decide
  rw [g0, g1]
  exact (chunk_overlap_floor_and_exact (List.replicate 120 "w") 60 (1/2)
    (by norm_num) (by norm_num)).2 0 (List.replicate 60 "w") (List.replicate 60 "w")
    h0 h1 (by decide)

/-! C7: the section-hint claim. -/

/-- The line test shared by the readings of C7: upper-case or numbered heading,
length between 6 and 99 characters. -/
def hintPred (s : String) : Bool :=
  (pyIsUpper s || matchNumHeading s) && (6 ≤ s.length && s.length ≤ 99)

/-- The claim's fallback read literally: the 50-character prefix with
whitespace collapsed — runs of whitespace become single spaces and the ends
are dropped, i.e. Python `" ".join(s.split())`. -/
def collapseWS (s : String) : String := String.intercalate " " (pySplit s)

/-- C7 read literally as a function: the first of the chunk's first 3 lines
(as they appear) that is fully upper-case or matches the numbered-heading
pattern and whose length is between 6 and 99 characters; otherwise the
whitespace-collapsed 50-character prefix with the truncation marker. -/
def claimHint (t : String) : String :=
  match ((pyLines t).take 3).find? hintPred with
  | some l => l
  | none => collapseWS (pyTake t 50) ++ "..."

/-- C7 (amended) as a function: lines are stripped before testing and the
stripped line is returned; the fallback replaces newlines by spaces in the
50-character prefix and strips the ends, without collapsing interior
whitespace runs. -/
def amendedHint (t : String) : String :=
  match (((pyLines t).take 3).map pyStrip).find? hintPred with
  | some s => s
  | none => pyStrip (pyReplaceNl (pyTake t 50)) ++ "..."

/-- C7 is false as stated: the code's fallback does not collapse interior
whitespace runs. On the chunk text "ab  cd" (no heading line) the code keeps
the double space while the claim's collapsed form removes it. -/
theorem section_hint_counterexample :
    extract_section_hint "ab  cd" = "ab  cd..." ∧
    claimHint "ab  cd" = "ab cd..." ∧
    extract_section_hint "ab  cd" ≠ claimHint "ab  cd" :=
  ⟨by decide, by decide, by decide⟩

theorem headingCheck_eq (s : String) : headingCheck s = hintPred s := by
  rw [headingCheck, hintPred]
  have h1 : (decide (5 < s.length)) = (decide (6 ≤ s.length)) :=
    decide_eq_decide.mpr (by omega)
  have h2 : (decide (s.length < 100)) = (decide (s.length ≤ 99)) :=
    decide_eq_decide.mpr (by omega)
  rw [h1, h2]
  exact Bool.and_comm _ _

theorem hintLoop_eq_find (ls : List String) :
    hintLoop ls = (ls.map pyStrip).find? hintPred := by
  induction ls with
  | nil => rfl
  | cons l ls ih =>
      rw [hintLoop, headingCheck_eq, List.map_cons]
      by_cases h : hintPred (pyStrip l) = true
      · rw [if_pos h, List.find?_cons_of_pos _ h]
      · rw [if_neg h, List.find?_cons_of_neg _ (by simpa using h), ih]

/-- C7 (amended): the section hint is the first of the chunk's first 3 lines
that, once stripped of surrounding whitespace, is fully upper-case or matches
the "leading digits, optional period, whitespace, capital letter" pattern and
whose stripped length is between 6 and 99 characters — the hint being the
stripped line; if none qualifies, it is the first 50 characters of the chunk
with newlines replaced by spaces and surrounding whitespace stripped, plus the
truncation marker. -/
theorem section_hint_amended (t : String) : extract_section_hint t = amendedHint t := by
  rw [extract_section_hint, amendedHint, hintLoop_eq_find]

/-! C8: chunk ids assigned by `ingest.create_chunks`. -/

/-- The id-assignment loop of `ingest.create_chunks`:
`chunk['chunk_id'] = chunk_id; chunk_id += 1` over the chunks in append order. -/
def assignIds : ℕ → List Chunk → List Chunk
  | _, [] => []
  | n, c :: cs => { c with chunk_id := n } :: assignIds (n + 1) cs

/-- Dict lookup `page_texts[page_num]` (total on the keys that are iterated). -/
def textOf (pt : List (ℕ × String)) (p : ℕ) : String := (pt.lookup p).getD ""

/-- `ingest.create_chunks`: iterate `sorted(page_texts.keys())`, chunk each page
with the configured parameters (`CHUNK_SIZE_WORDS = 350`,
`OVERLAP_PERCENTAGE = 0.30`), append, and assign global chunk ids 0, 1, 2, … in
append order. The page-text dict is an association list with distinct keys. -/
def create_chunks (pt : List (ℕ × String)) : List Chunk :=
  assignIds 0 ((List.insertionSort (· ≤ ·) (pt.map Prod.fst)).flatMap
    fun p => chunk_text_with_overlap (textOf pt p) p 350 (3/10))

/-- Forgetting the id assignment (ids are 0 both at chunker exit and here). -/
def eraseId (c : Chunk) : Chunk := { c with chunk_id := 0 }

theorem assignIds_get? :
    ∀ (l : List Chunk) (n i : ℕ) (c : Chunk),
      (assignIds n l).get? i = some c → c.chunk_id = n + i := by
  intro l
  induction l with
  | nil => intro n i c h; simp [assignIds] at h
  | cons d ds ih =>
      intro n i c h
      cases i with
      | zero =>
          simp only [assignIds, List.get?] at h
          cases h
          rfl
      | succ i =>
          have := ih (n + 1) i c (by simpa [assignIds, List.get?] using h)
          omega

theorem assignIds_pages (l : List Chunk) :
    ∀ n, (assignIds n l).map Chunk.page = l.map Chunk.page := by
  induction l with
  | nil => intro n; rfl
  | cons d ds ih => intro n; simp [assignIds, ih (n + 1)]

theorem assignIds_filter_page (l : List Chunk) (p : ℕ) :
    ∀ n, ((assignIds n l).filter (fun c => c.page = p)).map eraseId =
      (l.filter (fun c => c.page = p)).map eraseId := by
  induction l with
  | nil => intro n; rfl
  | cons d ds ih =>
      intro n
      by_cases hd : d.page = p
      · simp [assignIds, List.filter_cons, hd, eraseId, ih (n + 1)]
      · simp [assignIds, List.filter_cons, hd, ih (n + 1)]

theorem chunk_text_page (t : String) (p C : ℕ) (f : ℚ) :
    ∀ c ∈ chunk_text_with_overlap t p C f, c.page = p := by
  intro c hc
  rw [chunk_text_with_overlap] at hc
  obtain ⟨w, _, rfl⟩ := List.mem_map.mp hc
  rfl

theorem chunk_text_id (t : String) (p C : ℕ) (f : ℚ) :
    ∀ c ∈ chunk_text_with_overlap t p C f, c.chunk_id = 0 := by
  intro c hc
  rw [chunk_text_with_overlap] at hc
  obtain ⟨w, _, rfl⟩ := List.mem_map.mp hc
  rfl

theorem pairwise_page_flatMap (ks : List ℕ) (f : ℕ → List Chunk)
    (hs : List.Sorted (· ≤ ·) ks)
    (hp : ∀ p, ∀ c ∈ f p, Chunk.page c = p) :
    List.Pairwise (fun a b : Chunk => a.page ≤ b.page) (ks.flatMap f) := by
  induction ks with
  | nil => simp
  | cons k ks ih =>
      rw [List.flatMap_cons, List.pairwise_append]
      obtain ⟨hk, hks⟩ := List.sorted_cons.mp hs
      refine ⟨?_, ih hks, ?_⟩
      · exact List.pairwise_of_forall_mem_list fun a ha b hb => by
          rw [hp k a ha, hp k b hb]
      · intro a ha b hb
        obtain ⟨q, hq, hbq⟩ := List.mem_flatMap.mp hb
        rw [hp k a ha, hp q b hbq]
        exact hk q hq

theorem flatMap_filter_page (f : ℕ → List Chunk)
    (hp : ∀ q, ∀ c ∈ f q, Chunk.page c = q) :
    ∀ (ks : List ℕ), ks.Nodup → ∀ p ∈ ks,
      (ks.flatMap f).filter (fun c => c.page = p) = f p := by
  intro ks
  induction ks with
  | nil => intro _ p hp'; simp at hp'
  | cons k ks ih =>
      intro hnd p hpmem
      obtain ⟨hknotin, hndks⟩ := List.nodup_cons.mp hnd
      rw [List.flatMap_cons, List.filter_append]
      rcases List.mem_cons.mp hpmem with rfl | hpks
      · have h1 : (f p).filter (fun c => c.page = p) = f p :=
          List.filter_eq_self.mpr fun c hc => by simp [hp p c hc]
        have h2 : (ks.flatMap f).filter (fun c => c.page = p) = [] := by
          refine List.filter_eq_nil_iff.mpr fun c hc => ?_
          obtain ⟨q, hq, hcq⟩ := List.mem_flatMap.mp hc
          have : c.page = q := hp q c hcq
          simp only [this]
          intro hqp
          exact hknotin (by simpa [← (by exact_mod_cast of_decide_eq_true hqp : q = p)] using hq)
        rw [h1, h2, List.append_nil]
      · have hkp : k ≠ p := fun h => hknotin (h ▸ hpks)
        have h1 : (f k).filter (fun c => c.page = p) = [] := by
          refine List.filter_eq_nil_iff.mpr fun c hc => ?_
          have : c.page = k := hp k c hc
          simp [this, hkp]
        rw [h1, List.nil_append, ih hndks p hpks]

/-- C8: after ingestion over any page-keyed text mapping (an association list
with distinct keys, as a dict guarantees), every chunk's id equals its position
in the persisted sequence (so ids start at 0 and increase strictly across the
corpus), pages appear in ascending order, and the run of chunks of any page `p`
is exactly the chunker's within-page output for `p`, in order (ids aside). -/
theorem create_chunks_ids_and_order (pt : List (ℕ × String))
    (hnd : (pt.map Prod.fst).Nodup) :
    (∀ i c, (create_chunks pt).get? i = some c → c.chunk_id = i) ∧
    List.Pairwise (fun a b : Chunk => a.page ≤ b.page) (create_chunks pt) ∧
    (∀ p ∈ pt.map Prod.fst,
      ((create_chunks pt).filter (fun c => c.page = p)).map eraseId =
        chunk_text_with_overlap (textOf pt p) p 350 (3/10)) := by
  have hperm := List.perm_insertionSort (α := ℕ) (· ≤ ·) (pt.map Prod.fst)
  have hks_nodup : (List.insertionSort (· ≤ ·) (pt.map Prod.fst)).Nodup :=
    hperm.nodup_iff.mpr hnd
  have hpage : ∀ q, ∀ c ∈ chunk_text_with_overlap (textOf pt q) q 350 (3/10 : ℚ),
      Chunk.page c = q := fun q => chunk_text_page (textOf pt q) q 350 (3/10)
  refine ⟨?_, ?_, ?_⟩
  · intro i c h
    have := assignIds_get? _ 0 i c h
    omega
  · rw [create_chunks]
    have hraw := pairwise_page_flatMap (List.insertionSort (· ≤ ·) (pt.map Prod.fst))
      (fun p => chunk_text_with_overlap (textOf pt p) p 350 (3/10))
      (List.sorted_insertionSort _ _) hpage
    rw [← List.pairwise_map (f := Chunk.page) (R := (· ≤ ·)), assignIds_pages,
      List.pairwise_map]
    exact hraw
  · intro p hpmem
    rw [create_chunks, assignIds_filter_page,
      flatMap_filter_page _ hpage _ hks_nodup p (hperm.mem_iff.mpr hpmem)]
    conv_rhs => rw [show chunk_text_with_overlap (textOf pt p) p 350 (3/10 : ℚ) =
      (chunk_text_with_overlap (textOf pt p) p 350 (3/10 : ℚ)).map id from
        (List.map_id _).symm]
    refine List.map_congr_left fun c hc => ?_
    have h0 : c.chunk_id = 0 := chunk_text_id (textOf pt p) p 350 (3/10) c hc
    cases c
    simp_all [eraseId]

theorem create_chunks_ids_and_order_witness :
    (∀ i c, (create_chunks [(1, "t")]).get? i = some c → c.chunk_id = i) ∧
    List.Pairwise (fun a b : Chunk => a.page ≤ b.page) (create_chunks [(1, "t")]) ∧
    (∀ p ∈ ([(1, "t")].map Prod.fst),
      ((create_chunks [(1, "t")]).filter (fun c => c.page = p)).map eraseId =
        chunk_text_with_overlap (textOf [(1, "t")] p) p 350 (3/10)) :=
  create_chunks_ids_and_order [(1, "t")] (by simp)

/-! C4: the answer formatter. -/

/-- First-match lookup in the association-list model of the `page_groups`
dict. -/
def lkG : List (ℕ × List String) → ℕ → List String
  | [], _ => []
  | (k, ts) :: g, p => if k = p then ts else lkG g p

theorem lkG_addToGroups (g : List (ℕ × List String)) (p : ℕ) (t : String) (q : ℕ) :
    lkG (addToGroups g p t) q = if q = p then lkG g p ++ [t] else lkG g q := by
  induction g with
  | nil =>
      by_cases h : q = p
      · subst h; simp [addToGroups, lkG]
      · simp [addToGroups, lkG, h, Ne.symm h]
  | cons x g ih =>
      obtain ⟨k, ts⟩ := x
      by_cases hkp : k = p
      · subst hkp
        by_cases hq : q = k
        · subst hq; simp [addToGroups, lkG]
        · simp [addToGroups, lkG, hq, Ne.symm hq]
      · by_cases hq : q = p
        · subst hq
          have hkq : k ≠ q := hkp
          simp [addToGroups, lkG, hkp, hkq, ih]
        · simp [addToGroups, lkG, hkp, hq, ih]

theorem keys_addToGroups (g : List (ℕ × List String)) (p : ℕ) (t : String) (q : ℕ) :
    q ∈ (addToGroups g p t).map Prod.fst ↔ q ∈ g.map Prod.fst ∨ q = p := by
  induction g with
  | nil => simp [addToGroups]
  | cons x g ih =>
      obtain ⟨k, ts⟩ := x
      by_cases hkp : k = p
      · subst hkp
        simp [addToGroups]
        tauto
      · simp [addToGroups, hkp, ih]
        tauto

theorem nodup_keys_addToGroups (g : List (ℕ × List String)) (p : ℕ) (t : String)
    (h : (g.map Prod.fst).Nodup) : ((addToGroups g p t).map Prod.fst).Nodup := by
  induction g with
  | nil => simp [addToGroups]
  | cons x g ih =>
      obtain ⟨k, ts⟩ := x
      have h' : (k :: g.map Prod.fst).Nodup := by simpa using h
      obtain ⟨hk, hg⟩ := List.nodup_cons.mp h'
      by_cases hkp : k = p
      · subst hkp
        simpa [addToGroups] using h
      · have hrec := ih hg
        simp only [addToGroups, if_neg hkp, List.map_cons]
        rw [List.nodup_cons]
        refine ⟨?_, hrec⟩
        intro hmem
        rcases (keys_addToGroups g p t k).mp hmem with h1 | h1
        · exact hk h1
        · exact hkp h1

theorem mem_assoc_iff (g : List (ℕ × List String)) (h : (g.map Prod.fst).Nodup)
    (p : ℕ) (ts : List String) :
    (p, ts) ∈ g ↔ p ∈ g.map Prod.fst ∧ ts = lkG g p := by
  induction g with
  | nil => simp
  | cons x g ih =>
      obtain ⟨k, us⟩ := x
      have h' : (k :: g.map Prod.fst).Nodup := by simpa using h
      obtain ⟨hk, hg⟩ := List.nodup_cons.mp h'
      rw [List.map_cons]
      by_cases hkp : k = p
      · subst hkp
        rw [lkG, if_pos rfl]
        constructor
        · intro hmem
          rcases List.mem_cons.mp hmem with heq | hmem2
          · injection heq with h1 h2
            exact ⟨List.mem_cons_self _ _, h2⟩
          · exact absurd (List.mem_map_of_mem Prod.fst hmem2) hk
        · rintro ⟨-, rfl⟩
          exact List.mem_cons_self _ _
      · rw [lkG, if_neg hkp]
        constructor
        · intro hmem
          rcases List.mem_cons.mp hmem with heq | hmem2
          · injection heq with h1 h2
            exact absurd h1.symm hkp
          · obtain ⟨hmem3, hts⟩ := (ih hg).mp hmem2
            exact ⟨List.mem_cons_of_mem _ hmem3, hts⟩
        · rintro ⟨hor, rfl⟩
          rcases List.mem_cons.mp hor with h1 | h2
          · exact absurd h1.symm hkp
          · exact List.mem_cons_of_mem _ ((ih hg).mpr ⟨h2, rfl⟩)

theorem lkG_pageGroups_loop (cs : List (String × ℕ)) :
    ∀ (g : List (ℕ × List String)) (q : ℕ),
      lkG (cs.foldl (fun g c => addToGroups g c.2 c.1) g) q =
        lkG g q ++ (cs.filter (fun c => c.2 = q)).map Prod.fst := by
  induction cs with
  | nil => intro g q; simp
  | cons c cs ih =>
      intro g q
      rw [List.foldl_cons, ih, lkG_addToGroups]
      by_cases h : q = c.2
      · subst h
        simp [List.filter_cons]
      · simp [List.filter_cons, h, Ne.symm h]

theorem keys_pageGroups_loop (cs : List (String × ℕ)) :
    ∀ (g : List (ℕ × List String)) (q : ℕ),
      q ∈ (cs.foldl (fun g c => addToGroups g c.2 c.1) g).map Prod.fst ↔
        q ∈ g.map Prod.fst ∨ q ∈ cs.map Prod.snd := by
  induction cs with
  | nil => intro g q; simp
  | cons c cs ih =>
      intro g q
      rw [List.foldl_cons, ih, keys_addToGroups]
      simp
      tauto

theorem nodup_keys_pageGroups_loop (cs : List (String × ℕ)) :
    ∀ g, (g.map Prod.fst).Nodup →
      ((cs.foldl (fun g c => addToGroups g c.2 c.1) g).map Prod.fst).Nodup := by
  induction cs with
  | nil => intro g h; simpa using h
  | cons c cs ih => intro g h; exact ih _ (nodup_keys_addToGroups g c.2 c.1 h)

theorem lkG_pageGroups (cs : List (String × ℕ)) (q : ℕ) :
    lkG (pageGroups cs) q = (cs.filter (fun c => c.2 = q)).map Prod.fst := by
  have h := lkG_pageGroups_loop cs [] q
  simpa [pageGroups, lkG] using h

theorem keys_pageGroups (cs : List (String × ℕ)) (q : ℕ) :
    q ∈ (pageGroups cs).map Prod.fst ↔ q ∈ cs.map Prod.snd := by
  have h := keys_pageGroups_loop cs [] q
  simpa [pageGroups] using h

theorem nodup_keys_pageGroups (cs : List (String × ℕ)) :
    ((pageGroups cs).map Prod.fst).Nodup :=
  nodup_keys_pageGroups_loop cs [] (by simp)

instance : IsTotal (ℕ × List String) (fun a b => a.1 ≤ b.1) :=
  ⟨fun a b => Nat.le_total a.1 b.1⟩

instance : IsTrans (ℕ × List String) (fun a b => a.1 ≤ b.1) :=
  ⟨fun _ _ _ => Nat.le_trans⟩

instance : IsAntisymm (ℕ × List String) (fun a b => a.1 < b.1) :=
  ⟨fun _ _ h1 h2 => absurd (Nat.lt_trans h1 h2) (Nat.lt_irrefl _)⟩

/-- C4's description of the formatter, written independently of the code path:
iterate the distinct pages in ascending order; for each page, join the texts of
its chunks in arrival order with a newline and append the citation suffix; join
the group strings with a blank line; empty input yields the decline string. -/
def formatSpec (cs : List (String × ℕ)) : String :=
  if cs.isEmpty then declineMsg
  else String.intercalate "\n\n"
    ((List.insertionSort (· ≤ ·) ((cs.map Prod.snd).dedup)).map fun p =>
      String.intercalate "\n" ((cs.filter (fun c => c.2 = p)).map Prod.fst) ++
        " (p. " ++ toString p ++ ")")

theorem pgSort_pageGroups_eq (cs : List (String × ℕ)) :
    pgSort (pageGroups cs) =
      (List.insertionSort (· ≤ ·) ((cs.map Prod.snd).dedup)).map
        (fun p => (p, (cs.filter (fun c => c.2 = p)).map Prod.fst)) := by
  have hpermL : List.Perm (pgSort (pageGroups cs)) (pageGroups cs) :=
    List.perm_insertionSort _ _
  have hkeysL : ((pgSort (pageGroups cs)).map Prod.fst).Nodup :=
    ((hpermL.map Prod.fst).nodup_iff).mpr (nodup_keys_pageGroups cs)
  have hnodupL : (pgSort (pageGroups cs)).Nodup := hkeysL.of_map Prod.fst
  have hpermP : List.Perm (List.insertionSort (· ≤ ·) ((cs.map Prod.snd).dedup))
      ((cs.map Prod.snd).dedup) := List.perm_insertionSort _ _
  have hnodupP : (List.insertionSort (· ≤ ·) ((cs.map Prod.snd).dedup)).Nodup :=
    (hpermP.nodup_iff).mpr (List.nodup_dedup _)
  have hinj : Function.Injective
      (fun p : ℕ => (p, (cs.filter (fun c => c.2 = p)).map Prod.fst)) :=
    fun a b hab => congrArg Prod.fst hab
  have hnodupR : ((List.insertionSort (· ≤ ·) ((cs.map Prod.snd).dedup)).map
      (fun p => (p, (cs.filter (fun c => c.2 = p)).map Prod.fst))).Nodup :=
    hnodupP.map hinj
  have hmem : ∀ x, x ∈ pgSort (pageGroups cs) ↔
      x ∈ (List.insertionSort (· ≤ ·) ((cs.map Prod.snd).dedup)).map
        (fun p => (p, (cs.filter (fun c => c.2 = p)).map Prod.fst)) := by
    intro x
    obtain ⟨p, ts⟩ := x
    rw [hpermL.mem_iff, mem_assoc_iff (pageGroups cs) (nodup_keys_pageGroups cs) p ts,
      keys_pageGroups, lkG_pageGroups]
    constructor
    · rintro ⟨hp, rfl⟩
      exact List.mem_map_of_mem _ (by rw [hpermP.mem_iff, List.mem_dedup]; exact hp)
    · intro hmm
      obtain ⟨q, hq, heq⟩ := List.mem_map.mp hmm
      injection heq with h1 h2
      subst h1
      refine ⟨?_, h2.symm⟩
      rw [hpermP.mem_iff, List.mem_dedup] at hq
      exact hq
  have hperm : List.Perm (pgSort (pageGroups cs))
      ((List.insertionSort (· ≤ ·) ((cs.map Prod.snd).dedup)).map
        (fun p => (p, (cs.filter (fun c => c.2 = p)).map Prod.fst))) :=
    (List.perm_ext_iff_of_nodup hnodupL hnodupR).mpr hmem
  have hsortL : List.Pairwise (fun a b : ℕ × List String => a.1 < b.1)
      (pgSort (pageGroups cs)) := by
    have hle : List.Pairwise (fun a b : ℕ × List String => a.1 ≤ b.1)
        (pgSort (pageGroups cs)) := List.sorted_insertionSort _ _
    have hne : List.Pairwise (fun a b : ℕ × List String => a.1 ≠ b.1)
        (pgSort (pageGroups cs)) := (List.pairwise_map).mp hkeysL
    exact (hle.and hne).imp fun h => lt_of_le_of_ne h.1 h.2
  have hsortR : List.Pairwise (fun a b : ℕ × List String => a.1 < b.1)
      ((List.insertionSort (· ≤ ·) ((cs.map Prod.snd).dedup)).map
        (fun p => (p, (cs.filter (fun c => c.2 = p)).map Prod.fst))) := by
    rw [List.pairwise_map]
    have hle : List.Pairwise (· ≤ ·)
        (List.insertionSort (· ≤ ·) ((cs.map Prod.snd).dedup)) :=
      List.sorted_insertionSort _ _
    have hne : List.Pairwise (· ≠ ·)
        (List.insertionSort (· ≤ ·) ((cs.map Prod.snd).dedup)) := hnodupP
    exact (hle.and hne).imp fun h => lt_of_le_of_ne h.1 h.2
  exact List.eq_of_perm_of_sorted hperm hsortL hsortR

/-- C4: the formatter returns the fixed decline string on empty input; on
non-empty input it groups chunks by page preserving arrival order within a
page, iterates the groups in ascending page-number order, joins each group's
texts with a single newline and appends the " (p. <page>)" suffix, and joins
the group strings with a blank line — i.e. it agrees everywhere with the
claim's independent description `formatSpec`. -/
theorem format_matches_spec (cs : List (String × ℕ)) :
    format_retrieved_chunks cs = formatSpec cs := by
  rw [format_retrieved_chunks, formatSpec]
  by_cases h : cs.isEmpty
  · rw [if_pos h, if_pos h]
  · rw [if_neg h, if_neg h, pgSort_pageGroups_eq, List.map_map]
    rfl
